import Mathlib

/-! Verification of the AETERNITAS simulation core (`src/lib.rs`).

The Rust source is shallowly embedded: `u64`/`u32`/`u16`/`u8` values are
natural numbers reduced modulo the word size exactly where the source wraps,
`f32` values are idealized as real numbers, and the mutable per-tick loop of
`World::tick` is written as explicit state passing (one pass producing
per-creature flags, a death-removal pass folding `eraseIdx` over the sorted
index list, and a birth pass threading the generator and the id counter).
-/

/-- Linear congruential generator, `Rng` in the source: a single `u64` state. -/
structure Rng where
  state : Nat

/-- One LCG step: `state * A + C` with wrapping `u64` arithmetic
(`wrapping_mul` / `wrapping_add` in `Rng::next_u64`). -/
def lcg (s : Nat) : Nat :=
  (s * 6364136223846793005 + 1442695040888963407) % 2 ^ 64

/-- Source `Rng::next_u64`: advances the state and returns the new state. -/
def Rng.next_u64 (r : Rng) : Nat × Rng :=
  (lcg r.state, ⟨lcg r.state⟩)

/-- Source `Rng::next_f32`: upper 32 bits of `next_u64()` divided by `u32::MAX`. -/
noncomputable def Rng.next_f32 (r : Rng) : ℝ × Rng :=
  (((r.next_u64.1 >>> 32 : Nat) : ℝ) / (4294967295 : ℝ), r.next_u64.2)

/-- The 64-byte genome; each byte is a `Nat` (well-formed when `< 256`). -/
structure Genome where
  bytes : Fin 64 → Nat

/-- Well-formedness: every entry of the byte array is an actual byte. -/
def Genome.Wf (g : Genome) : Prop := ∀ i, g.bytes i < 256

/-- Total byte access; all offsets used by the source are in range. -/
def Genome.byteAt (g : Genome) (n : Nat) : Nat :=
  if h : n < 64 then g.bytes ⟨n, h⟩ else 0

/-- Little-endian value of a byte list (`u64::from_ne_bytes` /
`u32::from_le_bytes` on a little-endian platform). -/
def leWord : List Nat → Nat
  | [] => 0
  | b :: bs => b + 256 * leWord bs

/-- The `i*8 .. i*8+8` chunk of the genome as a 64-bit little-endian word
(`u64::from_ne_bytes(self.bytes[range])` in `Genome::crossover`). -/
def Genome.chunk (g : Genome) (q : Nat) : Nat :=
  leWord ((List.range 8).map (fun j => g.byteAt (8 * q + j)))

/-- Source `Genome::crossover`: the source loops over the eight 8-byte chunks, draws
one fresh `next_u64` mask per chunk, and combines
`(self_chunk & mask) | (other_chunk & !mask)`; so chunk `q` uses the
`(q+1)`-st generator output and the generator ends 8 steps ahead.  Byte
`8*q + j` of the child is byte `j` (little-endian) of the combined chunk. -/
def Genome.crossover (a b : Genome) (rng : Rng) : Genome × Rng :=
  (⟨fun idx =>
      let q := idx.val / 8
      let j := idx.val % 8
      let mask := lcg^[q + 1] rng.state
      ((a.chunk q &&& mask) ||| (b.chunk q &&& (mask ^^^ (2 ^ 64 - 1))))
        / 2 ^ (8 * j) % 256⟩,
   ⟨lcg^[8] rng.state⟩)

/-- Bit `k` of a genome (bit `k % 8` of byte `k / 8`). -/
def Genome.bit (g : Genome) (k : Fin 512) : Bool :=
  Nat.testBit (g.byteAt (k.val / 8)) (k.val % 8)

/-- The loop body of `Genome::mutate` for one byte: for each bit position the
source draws `next_f32()` and flips the bit when the draw is `< 0.0001`. -/
noncomputable def mutateByteBits : List Nat → Nat → Rng → Nat × Rng
  | [], b, rng => (b, rng)
  | bit :: bits, b, rng =>
    let f := rng.next_f32
    let b' := if f.1 < 0.0001 then b ^^^ 2 ^ bit else b
    mutateByteBits bits b' f.2

/-- Body of `Genome::mutate` over the byte list, front to back. -/
noncomputable def mutateBytes : List Nat → Rng → List Nat × Rng
  | [], rng => ([], rng)
  | b :: bs, rng =>
    let r := mutateByteBits [0, 1, 2, 3, 4, 5, 6, 7] b rng
    let rest := mutateBytes bs r.2
    (r.1 :: rest.1, rest.2)

/-- Source `Genome::mutate`: 512 sequential `next_f32` draws, one per bit. -/
noncomputable def Genome.mutate (g : Genome) (rng : Rng) : Genome × Rng :=
  let r := mutateBytes ((List.finRange 64).map g.bytes) rng
  (⟨fun i => r.1.getD i.val 0⟩, r.2)

/-- The `gray_decode` loop of `Genome::decode`:
`while p > 0 { p >>= 1; n ^= p; }`. -/
def grayLoop (n p : Nat) : Nat :=
  if p = 0 then n else grayLoop (n ^^^ p / 2) (p / 2)
termination_by p
decreasing_by exact Nat.div_lt_self (Nat.pos_of_ne_zero (by assumption)) one_lt_two

/-- Source `gray_decode` with `p` initialized to `n`. -/
def gray_decode (n : Nat) : Nat := grayLoop n n

/-- Closure `get_u32` in `Genome::decode`: 32-bit little-endian word at `start`. -/
def Genome.get_u32 (g : Genome) (start : Nat) : Nat :=
  leWord [g.byteAt start, g.byteAt (start + 1), g.byteAt (start + 2),
    g.byteAt (start + 3)]

/-- Closure `normalize` in `Genome::decode`: `v as f32 / u32::MAX as f32`. -/
noncomputable def Genome.normalize (v : Nat) : ℝ := (v : ℝ) / (4294967295 : ℝ)

/-- The expressed traits of a creature (`Phenotype`), `f32` fields idealized
as reals. -/
structure Phenotype where
  bmr : ℝ
  body_mass : ℝ
  perception_radius : ℝ
  max_lifespan : ℝ

/-- Source `Genome::decode`: words at byte offsets 0, 4, 16, 34, Gray-decoded,
normalized, linearly rescaled. -/
noncomputable def Genome.decode (g : Genome) : Phenotype :=
  let norm_bmr := Genome.normalize (gray_decode (g.get_u32 0))
  let norm_mass := Genome.normalize (gray_decode (g.get_u32 4))
  let norm_perception := Genome.normalize (gray_decode (g.get_u32 16))
  let norm_lifespan := Genome.normalize (gray_decode (g.get_u32 34))
  { bmr := norm_bmr * (2.0 - 0.5) + 0.5
    body_mass := norm_mass * (100.0 - 1.0) + 1.0
    perception_radius := norm_perception * (100.0 - 1.0) + 1.0
    max_lifespan := norm_lifespan * (5000.0 - 1000.0) + 1000.0 }

/-- Grid position, `u16` coordinates. -/
structure Position where
  x : Nat
  y : Nat
deriving DecidableEq

/-- Source `Position::dist`: Euclidean distance after casting both coordinates
to `f32`. -/
noncomputable def Position.dist (p other : Position) : ℝ :=
  let dx := (p.x : ℝ) - (other.x : ℝ)
  let dy := (p.y : ℝ) - (other.y : ℝ)
  Real.sqrt (dx * dx + dy * dy)

/-- The event log entries (`Event`). -/
inductive Event where
  | Birth (parent_id : Nat)
  | Death (id : Nat) (reason : String)
  | Move (id : Nat) (x : Nat) (y : Nat)
deriving DecidableEq

/-- Discriminator for `Event::Death`. -/
def Event.isDeath : Event → Bool
  | .Death _ _ => true
  | _ => false

/-- Discriminator for `Event::Birth`. -/
def Event.isBirth : Event → Bool
  | .Birth _ => true
  | _ => false

/-- Discriminator for `Event::Move`. -/
def Event.isMove : Event → Bool
  | .Move _ _ _ => true
  | _ => false

/-- One organism (`Simulacrum`). -/
structure Simulacrum where
  id : Nat
  genome : Genome
  phenotype : Phenotype
  pos : Position
  energy : ℝ
  alive : Bool

/-- Source `Simulacrum::new`: fixed initial energy buffer of 100, alive. -/
noncomputable def Simulacrum.new (id : Nat) (genome : Genome)
    (start_pos : Position) : Simulacrum :=
  { id := id, genome := genome, phenotype := genome.decode, pos := start_pos,
    energy := 100.0, alive := true }

/-- Source `Simulacrum::move_to`: rejects a target outside `[0, world_size)` on
either axis, otherwise debits `0.5 * mass * dist^2 * 0.1` and moves. -/
noncomputable def Simulacrum.move_to (c : Simulacrum) (target : Position)
    (world_size : Nat) : Simulacrum × Option Event :=
  if world_size ≤ target.x ∨ world_size ≤ target.y then (c, none)
  else
    let d := c.pos.dist target
    let cost := 0.5 * c.phenotype.body_mass * d ^ 2 * 0.1
    ({ c with energy := c.energy - cost, pos := target },
     some (Event.Move c.id target.x target.y))

/-- Source `World::calculate_energy`: the spatial energy field, a pure function of
tick count and position. -/
noncomputable def World.calculate_energy (tick : Nat) (pos : Position) : ℝ :=
  let t := (tick : ℝ) * 0.01
  let x := (pos.x : ℝ) * 0.1
  let y := (pos.y : ℝ) * 0.1
  let pattern := Real.sin (t + x) * Real.cos (t + y)
  let norm := (pattern + 1.0) / 2.0
  1.0 + 10.0 * norm

/-- Rust `as u16` on an `i32`: truncate modulo `2^16`. -/
def toU16 (n : Int) : Nat := (n % 65536).toNat

/-- Result of the per-creature part of tick pass 1: the updated creature,
the generator, and whether the creature was marked dead / marked for
reproduction. -/
structure StepOut where
  creature : Simulacrum
  rng : Rng
  dead : Bool
  repro : Bool

/-- The body of tick pass 1 for one creature (`World::tick`, steps 1-6):
a dead creature is marked and skipped before any draw; otherwise credit the
field gain, debit `bmr`, draw two deltas in `{-1,0,1}`, attempt the clamped
single-step move (the returned `Move` event is discarded), then mark dead
when energy is `≤ 0`, else mark for reproduction when energy `> 50`. -/
noncomputable def stepCreature (size tick : Nat) (rng : Rng)
    (c : Simulacrum) : StepOut :=
  if c.alive = false then ⟨c, rng, true, false⟩
  else
    let gain := World.calculate_energy tick c.pos
    let loss := c.phenotype.bmr
    let c1 : Simulacrum := { c with energy := c.energy + (gain - loss) }
    let r1 := rng.next_u64
    let r2 := r1.2.next_u64
    let dx : Int := (r1.1 % 3 : Nat) - 1
    let dy : Int := (r2.1 % 3 : Nat) - 1
    let c2 :=
      if dx ≠ 0 ∨ dy ≠ 0 then
        let tx := toU16 (min (max ((c1.pos.x : Int) + dx) 0) ((size : Int) - 1))
        let ty := toU16 (min (max ((c1.pos.y : Int) + dy) 0) ((size : Int) - 1))
        (c1.move_to ⟨tx, ty⟩ size).1
      else c1
    if c2.energy ≤ 0 then ⟨c2, r2.2, true, false⟩
    else ⟨c2, r2.2, false, if c2.energy > 50 then true else false⟩

/-- Tick pass 1 over the whole population, threading the generator. -/
noncomputable def pass1 (size tick : Nat) :
    List Simulacrum → Rng → List StepOut × Rng
  | [], rng => ([], rng)
  | c :: cs, rng =>
    let s := stepCreature size tick rng c
    let rest := pass1 size tick cs s.rng
    (s :: rest.1, rest.2)

/-- The `dead_indices` list collected by pass 1: the `enumerate` index of
every marked-dead creature, in ascending order. -/
def deadIndicesOf : Nat → List StepOut → List Nat
  | _, [] => []
  | i, s :: ss => (if s.dead then [i] else []) ++ deadIndicesOf (i + 1) ss

/-- The `repro_ids` list collected by pass 1. -/
def reproIdsOf (ss : List StepOut) : List Nat :=
  ss.filterMap (fun s => if s.repro then some s.creature.id else none)

/-- Stable insertion into a descending list (model of
`sort_by(|a, b| b.cmp(a))`). -/
def insertDesc (x : Nat) : List Nat → List Nat
  | [] => [x]
  | y :: ys => if y ≤ x then x :: y :: ys else y :: insertDesc x ys

/-- Descending sort of the dead-index list. -/
def sortDesc : List Nat → List Nat
  | [] => []
  | x :: xs => insertDesc x (sortDesc xs)

/-- Rust `Vec::dedup`: remove consecutive duplicates. -/
def dedupConsec : List Nat → List Nat
  | [] => []
  | [x] => [x]
  | x :: y :: ys =>
    if x = y then dedupConsec (y :: ys) else x :: dedupConsec (y :: ys)

/-- Tick pass 2 (`// Pass 2: Process Deaths`): walk the sorted descending
index list, remove each still-valid index and emit a Death event. -/
def pass2 : List Nat → List Simulacrum → List Simulacrum × List Event
  | [], cs => (cs, [])
  | i :: is, cs =>
    match cs[i]? with
    | some c =>
      let rest := pass2 is (cs.eraseIdx i)
      (rest.1, Event.Death c.id "Energy Depletion" :: rest.2)
    | none => pass2 is cs

/-- Result of tick pass 3. -/
structure BirthPass where
  creatures : List Simulacrum
  offspring : List Simulacrum
  events : List Event
  rng : Rng
  nextId : Nat

/-- Tick pass 3 (`// Pass 3: Process Births`): for each reproduction id,
re-find the parent by id (a vanished id is skipped), debit the split cost 25
only when the parent still has more than that, mutate a copy of the genome,
and build the child at the parent's position with energy 25. -/
noncomputable def pass3 :
    List Nat → List Simulacrum → Rng → Nat → BirthPass
  | [], cs, rng, nid => ⟨cs, [], [], rng, nid⟩
  | p :: ps, cs, rng, nid =>
    let j := cs.findIdx (fun c => c.id == p)
    if h : j < cs.length then
      let parent := cs.get ⟨j, h⟩
      if parent.energy > 25 then
        let cs' := cs.set j { parent with energy := parent.energy - 25 }
        let m := parent.genome.mutate rng
        let child : Simulacrum :=
          { id := nid, genome := m.1, phenotype := m.1.decode,
            pos := parent.pos, energy := 25, alive := true }
        let rest := pass3 ps cs' m.2 (nid + 1)
        ⟨rest.creatures, child :: rest.offspring,
         Event.Birth parent.id :: rest.events, rest.rng, rest.nextId⟩
      else pass3 ps cs rng nid
    else pass3 ps cs rng nid

/-- The world state (`World`). -/
structure World where
  size : Nat
  creatures : List Simulacrum
  tick_count : Nat
  rng : Rng
  next_id : Nat

/-- Source `World::tick`: increment the tick counter, run the three passes, append
the offspring, and return the death events followed by the birth events. -/
noncomputable def World.tick (w : World) : World × List Event :=
  let tc := w.tick_count + 1
  let p1 := pass1 w.size tc w.creatures w.rng
  let cs1 := p1.1.map (fun s => s.creature)
  let dead := dedupConsec (sortDesc (deadIndicesOf 0 p1.1))
  let p2 := pass2 dead cs1
  let p3 := pass3 (reproIdsOf p1.1) p2.1 p1.2 w.next_id
  ({ size := w.size, creatures := p3.creatures ++ p3.offspring,
     tick_count := tc, rng := p3.rng, next_id := p3.nextId },
   p2.2 ++ p3.events)

/-! Section: Basic facts about `move_to` -/

/-- An in-bounds `move_to` debits the quadratic drag cost and moves. -/
lemma move_to_in_bounds (c : Simulacrum) (t : Position) (ws : Nat)
    (hx : t.x < ws) (hy : t.y < ws) :
    c.move_to t ws =
      ({ c with
          energy := c.energy - 0.5 * c.phenotype.body_mass * (c.pos.dist t) ^ 2 * 0.1,
          pos := t },
       some (Event.Move c.id t.x t.y)) := by
  unfold Simulacrum.move_to
  rw [if_neg (by omega : ¬(ws ≤ t.x ∨ ws ≤ t.y))]

/-- All-zero genome, used as a concrete test input. -/
def gZero : Genome := ⟨fun _ => 0⟩

/-- Concrete creature for the `C1` instances: bmr 1, body mass 16. -/
noncomputable def cC1 : Simulacrum :=
  ⟨1, gZero, ⟨1, 16, 1, 1000⟩, ⟨0, 0⟩, 100, true⟩

/-- Concrete dead creature (liveness flag off) with body mass 2. -/
noncomputable def cDead : Simulacrum :=
  ⟨9, gZero, ⟨1, 2, 1, 1000⟩, ⟨0, 0⟩, 5, false⟩

/-- Concrete creature with body mass 1 for the movement-cost instances. -/
noncomputable def cA : Simulacrum :=
  ⟨3, gZero, ⟨1, 1, 1, 1000⟩, ⟨0, 0⟩, 10, true⟩

/-- Distance from the origin to `(1,0)` is 1. -/
lemma dist_00_10 : Position.dist ⟨0, 0⟩ ⟨1, 0⟩ = 1 := by
  simp only [Position.dist]
  norm_num

/-- Distance from the origin to `(2,0)` is 2. -/
lemma dist_00_20 : Position.dist ⟨0, 0⟩ ⟨2, 0⟩ = 2 := by
  simp only [Position.dist]
  norm_num
  rw [show (4 : ℝ) = 2 ^ 2 by norm_num]
  exact Real.sqrt_sq (by norm_num)

/-- C6: an out-of-bounds target is rejected with no state change and no
event, and an in-bounds move is distinguishable because it returns `some`. -/
theorem C6_out_of_bounds_rejected (c : Simulacrum) (t : Position) (ws : Nat)
    (h : ws ≤ t.x ∨ ws ≤ t.y) :
    c.move_to t ws = (c, none) ∧
      ∀ t2 : Position, t2.x < ws → t2.y < ws → (c.move_to t2 ws).2 ≠ none := by
  constructor
  · unfold Simulacrum.move_to
    rw [if_pos h]
  · intro t2 h2x h2y
    rw [move_to_in_bounds c t2 ws h2x h2y]
    simp

/-- Witness for C6 at a concrete out-of-bounds call. -/
theorem C6_witness :
    ((4 : Nat) ≤ 5 ∨ (4 : Nat) ≤ 0) ∧
      (cA.move_to ⟨5, 0⟩ 4 = (cA, none) ∧
        ∀ t2 : Position, t2.x < 4 → t2.y < 4 → (cA.move_to t2 4).2 ≠ none) :=
  ⟨Or.inl (by norm_num),
   C6_out_of_bounds_rejected cA ⟨5, 0⟩ 4 (Or.inl (by norm_num))⟩

/-- C2 (amended): `move_to` does not consult the liveness flag at all: for
every in-bounds target it debits the drag cost, moves, and leaves `alive`
untouched — including on a creature whose `alive` flag is already false, so
a dead creature's energy does change. -/
theorem C2_move_ignores_liveness (c : Simulacrum) (t : Position) (ws : Nat)
    (hx : t.x < ws) (hy : t.y < ws) :
    (c.move_to t ws).1.energy
        = c.energy - 0.5 * c.phenotype.body_mass * (c.pos.dist t) ^ 2 * 0.1 ∧
      (c.move_to t ws).1.pos = t ∧ (c.move_to t ws).1.alive = c.alive := by
  rw [move_to_in_bounds c t ws hx hy]
  exact ⟨rfl, rfl, rfl⟩

/-- Witness for C2 at the concrete dead creature `cDead`. -/
theorem C2_witness :
    (1 : Nat) < 4 ∧ (0 : Nat) < 4 ∧ cDead.alive = false ∧
      ((cDead.move_to ⟨1, 0⟩ 4).1.energy
          = cDead.energy
            - 0.5 * cDead.phenotype.body_mass * (cDead.pos.dist ⟨1, 0⟩) ^ 2 * 0.1 ∧
        (cDead.move_to ⟨1, 0⟩ 4).1.pos = ⟨1, 0⟩ ∧
        (cDead.move_to ⟨1, 0⟩ 4).1.alive = cDead.alive) :=
  ⟨by norm_num, by norm_num, rfl,
   C2_move_ignores_liveness cDead ⟨1, 0⟩ 4 (by norm_num) (by norm_num)⟩

/-- C2 counterexample: a dead agent's energy does change after death — an
in-bounds `move_to` on the dead creature `cDead` alters its energy. -/
theorem C2_counterexample :
    (cDead.move_to ⟨1, 0⟩ 4).1.energy ≠ cDead.energy := by
  rw [move_to_in_bounds cDead ⟨1, 0⟩ 4 (by norm_num) (by norm_num)]
  show cDead.energy
      - 0.5 * cDead.phenotype.body_mass * (cDead.pos.dist ⟨1, 0⟩) ^ 2 * 0.1
    ≠ cDead.energy
  rw [show cDead.pos = ⟨0, 0⟩ from rfl, dist_00_10]
  show (5 : ℝ) - 0.5 * 2 * 1 ^ 2 * 0.1 ≠ 5
  norm_num

/-- C3 (amended): the energy debited by a successful move is
`0.5 * mass * dist^2 * 0.1` — quadratic, not linear, in the distance. -/
theorem C3_move_cost_quadratic (c : Simulacrum) (t : Position) (ws : Nat)
    (hx : t.x < ws) (hy : t.y < ws) :
    c.energy - (c.move_to t ws).1.energy
      = 0.5 * c.phenotype.body_mass * (c.pos.dist t) ^ 2 * 0.1 := by
  rw [move_to_in_bounds c t ws hx hy]
  show c.energy - (c.energy - 0.5 * c.phenotype.body_mass * (c.pos.dist t) ^ 2 * 0.1) = _
  ring

/-- Witness for C3 at a concrete in-bounds move. -/
theorem C3_witness :
    (1 : Nat) < 4 ∧ (0 : Nat) < 4 ∧
      cA.energy - (cA.move_to ⟨1, 0⟩ 4).1.energy
        = 0.5 * cA.phenotype.body_mass * (cA.pos.dist ⟨1, 0⟩) ^ 2 * 0.1 :=
  ⟨by norm_num, by norm_num,
   C3_move_cost_quadratic cA ⟨1, 0⟩ 4 (by norm_num) (by norm_num)⟩

/-- C3 counterexample: no single coefficient `k` makes the debited energy
equal `dist * mass * k` for every successful move — the moves of length 1
and 2 from the origin force `k = 0.05` and `k = 0.1` respectively. -/
theorem C3_counterexample :
    ¬ ∃ k : ℝ, ∀ (c : Simulacrum) (t : Position) (ws : Nat),
        t.x < ws → t.y < ws →
        c.energy - (c.move_to t ws).1.energy
          = c.pos.dist t * c.phenotype.body_mass * k := by
  rintro ⟨k, hk⟩
  have h1 : (10 : ℝ) - (10 - 0.5 * 1 * (Position.dist ⟨0, 0⟩ ⟨1, 0⟩) ^ 2 * 0.1)
      = Position.dist ⟨0, 0⟩ ⟨1, 0⟩ * 1 * k := by
    have h := hk cA ⟨1, 0⟩ 4 (by norm_num) (by norm_num)
    rw [move_to_in_bounds cA ⟨1, 0⟩ 4 (by norm_num) (by norm_num)] at h
    exact h
  have h2 : (10 : ℝ) - (10 - 0.5 * 1 * (Position.dist ⟨0, 0⟩ ⟨2, 0⟩) ^ 2 * 0.1)
      = Position.dist ⟨0, 0⟩ ⟨2, 0⟩ * 1 * k := by
    have h := hk cA ⟨2, 0⟩ 4 (by norm_num) (by norm_num)
    rw [move_to_in_bounds cA ⟨2, 0⟩ 4 (by norm_num) (by norm_num)] at h
    exact h
  rw [dist_00_10] at h1
  rw [dist_00_20] at h2
  norm_num at h1 h2
  linarith

/-- C8: `next_f32` does not stay below 1: from the seed 7419554015829250069
the next `u64` output is `0xFFFFFFFF00000000`, whose upper 32 bits are
`u32::MAX`, so the quotient is exactly 1 — outside the claimed `[0, 1)`. -/
theorem C8_next_f32_hits_one :
    (Rng.next_f32 ⟨7419554015829250069⟩).1 = 1 := by
  unfold Rng.next_f32 Rng.next_u64 lcg
  rw [Nat.shiftRight_eq_div_pow]
  norm_num

/-- The returned creature of the final vitals branch of the per-creature
step is the same in both branches. -/
lemma creature_of_ite (P : Prop) [Decidable P] (c2 : Simulacrum) (r : Rng)
    (b : Bool) :
    (if P then StepOut.mk c2 r true false else StepOut.mk c2 r false b).creature
      = c2 := by
  split <;> rfl

/-- Energy accounting of `move_to`: the debit is zero (rejected move) or one
quadratic drag cost. -/
lemma move_to_energy (c : Simulacrum) (t : Position) (ws : Nat) :
    ∃ mc : ℝ,
      (mc = 0 ∨ ∃ t2 : Position,
          mc = 0.5 * c.phenotype.body_mass * (c.pos.dist t2) ^ 2 * 0.1) ∧
      (c.move_to t ws).1.energy = c.energy - mc := by
  unfold Simulacrum.move_to
  split
  · exact ⟨0, Or.inl rfl, by show c.energy = c.energy - 0; ring⟩
  · exact ⟨0.5 * c.phenotype.body_mass * (c.pos.dist t) ^ 2 * 0.1,
      Or.inr ⟨t, rfl⟩, rfl⟩

/-- C1 (amended): the only debits an alive creature's energy receives in the
per-creature part of a tick are the flat metabolic cost `bmr` (no mass
scaling, no lifespan counter, no senescence multiplier) and possibly one
quadratic movement cost. -/
theorem C1_metabolic_cost_is_bmr (size tick : Nat) (rng : Rng)
    (c : Simulacrum) (h : c.alive = true) :
    ∃ mc : ℝ,
      (mc = 0 ∨ ∃ t : Position,
          mc = 0.5 * c.phenotype.body_mass * (c.pos.dist t) ^ 2 * 0.1) ∧
      (stepCreature size tick rng c).creature.energy
        = c.energy + World.calculate_energy tick c.pos - c.phenotype.bmr - mc := by
  simp only [stepCreature, h]
  simp only [show (true = false) = False by simp, if_false]
  simp only [creature_of_ite]
  by_cases hmv :
      ((rng.next_u64.1 % 3 : Nat) : Int) - 1 ≠ 0 ∨
        ((rng.next_u64.2.next_u64.1 % 3 : Nat) : Int) - 1 ≠ 0
  · simp only [if_pos hmv]
    obtain ⟨mc, hmc, he⟩ := move_to_energy
      { id := c.id, genome := c.genome, phenotype := c.phenotype, pos := c.pos,
        energy := c.energy + (World.calculate_energy tick c.pos - c.phenotype.bmr),
        alive := true }
      { x := toU16 (min (max ((c.pos.x : Int) + (((rng.next_u64.1 % 3 : Nat) : Int) - 1)) 0)
          ((size : Int) - 1)),
        y := toU16 (min (max ((c.pos.y : Int) + (((rng.next_u64.2.next_u64.1 % 3 : Nat) : Int) - 1)) 0)
          ((size : Int) - 1)) }
      size
    refine ⟨mc, hmc, ?_⟩
    rw [he]
    show c.energy + (World.calculate_energy tick c.pos - c.phenotype.bmr) - mc = _
    ring
  · simp only [if_neg hmv]
    refine ⟨0, Or.inl rfl, ?_⟩
    show c.energy + (World.calculate_energy tick c.pos - c.phenotype.bmr) = _
    ring

/-- Witness for C1: the amended statement at the concrete creature `cC1`. -/
theorem C1_witness :
    cC1.alive = true ∧
      ∃ mc : ℝ,
        (mc = 0 ∨ ∃ t : Position,
            mc = 0.5 * cC1.phenotype.body_mass * (cC1.pos.dist t) ^ 2 * 0.1) ∧
        (stepCreature 1 1 ⟨0⟩ cC1).creature.energy
          = cC1.energy + World.calculate_energy 1 cC1.pos - cC1.phenotype.bmr - mc :=
  ⟨rfl, C1_metabolic_cost_is_bmr 1 1 ⟨0⟩ cC1 rfl⟩

/-- Evaluation fact `16 ^ (3/4) = 8` over the reals. -/
lemma rpow_sixteen : (16 : ℝ) ^ ((3 : ℝ) / 4) = 8 := by
  have h2 : (16 : ℝ) = (2 : ℝ) ^ ((4 : ℕ) : ℝ) := by
    rw [Real.rpow_natCast]; norm_num
  rw [h2, ← Real.rpow_mul (by norm_num : (0 : ℝ) ≤ 2)]
  rw [show (((4 : ℕ) : ℝ) * ((3 : ℝ) / 4)) = ((3 : ℕ) : ℝ) by norm_num]
  rw [Real.rpow_natCast]; norm_num

/-- From generator state 0 both deltas are 0 (`1442695040888963407 % 3 = 1`),
so `cC1` does not move and only the metabolic debit applies. -/
lemma stepC1_energy :
    (stepCreature 1 1 ⟨0⟩ cC1).creature.energy
      = cC1.energy + (World.calculate_energy 1 cC1.pos - cC1.phenotype.bmr) := by
  simp only [stepCreature, show cC1.alive = true from rfl]
  simp only [show (true = false) = False by simp, if_false]
  simp only [creature_of_ite]
  rw [if_neg (by norm_num [Rng.next_u64, lcg])]

/-- C1 counterexample: at the concrete creature `cC1` (bmr 1, body mass 16)
the energy after the per-creature step is the start energy plus the field
gain minus 1, not minus `bmr * mass^0.75 = 8` as the claim requires. -/
theorem C1_counterexample :
    (stepCreature 1 1 ⟨0⟩ cC1).creature.energy
      ≠ cC1.energy + World.calculate_energy 1 cC1.pos
          - cC1.phenotype.bmr * cC1.phenotype.body_mass ^ ((3 : ℝ) / 4) := by
  rw [stepC1_energy, show cC1.phenotype.bmr = 1 from rfl,
    show cC1.phenotype.body_mass = 16 from rfl, show cC1.energy = 100 from rfl,
    rpow_sixteen]
  intro hEq
  linarith

/-- Bytes of a well-formed genome are bytes. -/
lemma byteAt_lt (g : Genome) (h : g.Wf) (n : Nat) : g.byteAt n < 256 := by
  unfold Genome.byteAt
  split
  · exact h _
  · norm_num

/-- The Gray-decode loop stays below any power of two bounding both inputs. -/
lemma grayLoop_lt {w : Nat} : ∀ p n, n < 2 ^ w → p < 2 ^ w → grayLoop n p < 2 ^ w := by
  intro p
  induction p using Nat.strong_induction_on with
  | _ p ih =>
    intro n hn hp
    rw [grayLoop]
    split
    · exact hn
    · next hne =>
      exact ih (p / 2) (Nat.div_lt_self (Nat.pos_of_ne_zero hne) one_lt_two) _
        (Nat.xor_lt_two_pow hn (lt_of_le_of_lt (Nat.div_le_self p 2) hp))
        (lt_of_le_of_lt (Nat.div_le_self p 2) hp)

/-- The function `gray_decode` maps 32-bit words to 32-bit words. -/
lemma gray_decode_lt (n : Nat) (h : n < 2 ^ 32) : gray_decode n < 2 ^ 32 :=
  grayLoop_lt n n h h

/-- A 4-byte little-endian word of a well-formed genome is below `2^32`. -/
lemma get_u32_lt (g : Genome) (h : g.Wf) (s : Nat) : g.get_u32 s < 2 ^ 32 := by
  have h0 := byteAt_lt g h s
  have h1 := byteAt_lt g h (s + 1)
  have h2 := byteAt_lt g h (s + 2)
  have h3 := byteAt_lt g h (s + 3)
  simp only [Genome.get_u32, leWord]
  omega

/-- The value `normalize v` of a 32-bit word lies in `[0, 1]`. -/
lemma normalize_mem (v : Nat) (h : v < 2 ^ 32) :
    0 ≤ Genome.normalize v ∧ Genome.normalize v ≤ 1 := by
  unfold Genome.normalize
  constructor
  · positivity
  · rw [div_le_one (by norm_num)]
    exact_mod_cast Nat.lt_succ_iff.mp (by omega : v < 4294967295 + 1)

/-- C4: every well-formed 64-byte genome decodes into the documented trait
ranges; `decode` is a pure function of the byte array by construction. -/
theorem C4_decode_ranges (g : Genome) (h : g.Wf) :
    (0.5 ≤ g.decode.bmr ∧ g.decode.bmr ≤ 2) ∧
      (1 ≤ g.decode.body_mass ∧ g.decode.body_mass ≤ 100) ∧
      (1 ≤ g.decode.perception_radius ∧ g.decode.perception_radius ≤ 100) ∧
      (1000 ≤ g.decode.max_lifespan ∧ g.decode.max_lifespan ≤ 5000) := by
  have h0 := normalize_mem _ (gray_decode_lt _ (get_u32_lt g h 0))
  have h4 := normalize_mem _ (gray_decode_lt _ (get_u32_lt g h 4))
  have h16 := normalize_mem _ (gray_decode_lt _ (get_u32_lt g h 16))
  have h34 := normalize_mem _ (gray_decode_lt _ (get_u32_lt g h 34))
  have e1 : g.decode.bmr
      = Genome.normalize (gray_decode (g.get_u32 0)) * (2.0 - 0.5) + 0.5 := rfl
  have e2 : g.decode.body_mass
      = Genome.normalize (gray_decode (g.get_u32 4)) * (100.0 - 1.0) + 1.0 := rfl
  have e3 : g.decode.perception_radius
      = Genome.normalize (gray_decode (g.get_u32 16)) * (100.0 - 1.0) + 1.0 := rfl
  have e4 : g.decode.max_lifespan
      = Genome.normalize (gray_decode (g.get_u32 34)) * (5000.0 - 1000.0) + 1000.0 := rfl
  exact ⟨⟨by rw [e1]; linarith [h0.1, h0.2], by rw [e1]; linarith [h0.1, h0.2]⟩,
    ⟨by rw [e2]; linarith [h4.1, h4.2], by rw [e2]; linarith [h4.1, h4.2]⟩,
    ⟨by rw [e3]; linarith [h16.1, h16.2], by rw [e3]; linarith [h16.1, h16.2]⟩,
    ⟨by rw [e4]; linarith [h34.1, h34.2], by rw [e4]; linarith [h34.1, h34.2]⟩⟩

/-- The all-zero genome is well-formed. -/
lemma gZero_wf : gZero.Wf := fun _ => by norm_num [gZero]

/-- Witness for C4 at the all-zero genome. -/
theorem C4_witness :
    gZero.Wf ∧
      ((0.5 ≤ gZero.decode.bmr ∧ gZero.decode.bmr ≤ 2) ∧
        (1 ≤ gZero.decode.body_mass ∧ gZero.decode.body_mass ≤ 100) ∧
        (1 ≤ gZero.decode.perception_radius ∧ gZero.decode.perception_radius ≤ 100) ∧
        (1000 ≤ gZero.decode.max_lifespan ∧ gZero.decode.max_lifespan ≤ 5000)) :=
  ⟨gZero_wf, C4_decode_ranges gZero gZero_wf⟩

/-! Section: Bit-level structure of `crossover` -/

/-- Bit `8*j + r` of a little-endian byte list is bit `r` of byte `j`. -/
lemma testBit_leWord : ∀ (bs : List Nat) (j r : Nat), (∀ x ∈ bs, x < 256) →
    r < 8 → j < bs.length →
    Nat.testBit (leWord bs) (8 * j + r) = Nat.testBit (bs.getD j 0) r := by
  intro bs
  induction bs with
  | nil => intro j r _ _ hj; simp at hj
  | cons b bs ih =>
    intro j r hb hr hj
    cases j with
    | zero =>
      rw [show 8 * 0 + r = r from by omega, List.getD_cons_zero]
      have hmod : leWord (b :: bs) % 2 ^ 8 = b := by
        simp only [leWord]
        rw [show (2 : Nat) ^ 8 = 256 from by norm_num, Nat.add_mul_mod_self_left]
        exact Nat.mod_eq_of_lt (hb b (List.mem_cons_self b bs))
      have hcut : Nat.testBit (leWord (b :: bs)) r
          = Nat.testBit (leWord (b :: bs) % 2 ^ 8) r := by
        rw [Nat.testBit_mod_two_pow]
        simp [hr]
      rw [hcut, hmod]
    | succ j =>
      rw [show 8 * (j + 1) + r = 8 + (8 * j + r) from by ring,
        ← Nat.testBit_shiftRight, Nat.shiftRight_eq_div_pow]
      have hdiv : leWord (b :: bs) / 2 ^ 8 = leWord bs := by
        simp only [leWord]
        rw [show (2 : Nat) ^ 8 = 256 from by norm_num,
          Nat.add_mul_div_left _ _ (by norm_num : 0 < 256),
          Nat.div_eq_of_lt (hb b (List.mem_cons_self b bs)), Nat.zero_add]
      rw [hdiv, List.getD_cons_succ]
      exact ih j r (fun x hx => hb x (List.mem_cons_of_mem b hx)) hr
        (Nat.lt_of_succ_lt_succ (by simpa using hj))

/-- Extracting byte `j` of a word and testing bit `r` is testing bit
`8*j + r` of the word. -/
lemma testBit_byte_of_word (C j r : Nat) (hr : r < 8) :
    Nat.testBit (C / 2 ^ (8 * j) % 256) r = Nat.testBit C (8 * j + r) := by
  rw [show (256 : Nat) = 2 ^ 8 from by norm_num, Nat.testBit_mod_two_pow,
    ← Nat.shiftRight_eq_div_pow, Nat.testBit_shiftRight]
  simp [hr]

/-- Per-bit view of the crossover combination `(x & m) | (y & !m)` below the
word width: bit `t` selects `x`'s bit when the mask bit is set, else `y`'s. -/
lemma testBit_crossover_combine (x y m t : Nat) (ht : t < 64) :
    Nat.testBit ((x &&& m) ||| (y &&& (m ^^^ (2 ^ 64 - 1)))) t
      = if Nat.testBit m t then Nat.testBit x t else Nat.testBit y t := by
  rw [Nat.testBit_or, Nat.testBit_and, Nat.testBit_and, Nat.testBit_xor,
    Nat.testBit_two_pow_sub_one]
  rcases hm : Nat.testBit m t <;> simp [hm, ht]

/-- Bit `8*j + r` of chunk `q` of a well-formed genome is bit `r` of byte
`8*q + j`. -/
lemma chunk_byteAt_testBit (g : Genome) (h : g.Wf) (q j r : Nat)
    (hj : j < 8) (hr : r < 8) :
    Nat.testBit (g.chunk q) (8 * j + r) = Nat.testBit (g.byteAt (8 * q + j)) r := by
  unfold Genome.chunk
  rw [testBit_leWord _ j r ?_ hr ?_]
  · congr 1
    rw [List.getD_eq_getElem?_getD, List.getElem?_map, List.getElem?_range hj]
    rfl
  · intro x hx
    obtain ⟨i, _, rfl⟩ := List.mem_map.mp hx
    exact byteAt_lt g h _
  · simpa using hj

/-- As above, indexed by the in-chunk bit position `t < 64`. -/
lemma chunk_testBit_byte (g : Genome) (h : g.Wf) (q t : Nat) (ht : t < 64) :
    Nat.testBit (g.chunk q) t = Nat.testBit (g.byteAt (8 * q + t / 8)) (t % 8) := by
  have hb := chunk_byteAt_testBit g h q (t / 8) (t % 8) (by omega) (by omega)
  rw [show 8 * (t / 8) + t % 8 = t from by omega] at hb
  exact hb

/-- Master lemma for C7: bit `k` of the crossover child is bit `k` of `a`
when bit `k % 64` of the chunk mask is set, else bit `k` of `b`. -/
lemma crossover_bit_ite (a b : Genome) (rng : Rng) (k : Fin 512)
    (ha : a.Wf) (hb : b.Wf) :
    (a.crossover b rng).1.bit k
      = if Nat.testBit (lcg^[k.val / 64 + 1] rng.state) (k.val % 64)
        then a.bit k else b.bit k := by
  have hk := k.isLt
  have hbyte : (a.crossover b rng).1.byteAt (k.val / 8)
      = ((a.chunk (k.val / 8 / 8) &&& lcg^[k.val / 8 / 8 + 1] rng.state) |||
          (b.chunk (k.val / 8 / 8) &&&
            (lcg^[k.val / 8 / 8 + 1] rng.state ^^^ (2 ^ 64 - 1))))
          / 2 ^ (8 * (k.val / 8 % 8)) % 256 := by
    unfold Genome.byteAt Genome.crossover
    rw [dif_pos (show k.val / 8 < 64 by omega)]
  show Nat.testBit ((a.crossover b rng).1.byteAt (k.val / 8)) (k.val % 8) = _
  rw [hbyte, testBit_byte_of_word _ _ _ (by omega)]
  rw [show 8 * (k.val / 8 % 8) + k.val % 8 = k.val % 64 from by omega]
  rw [show k.val / 8 / 8 = k.val / 64 from by omega]
  rw [testBit_crossover_combine _ _ _ _ (by omega)]
  rw [chunk_testBit_byte a ha (k.val / 64) (k.val % 64) (by omega),
    chunk_testBit_byte b hb (k.val / 64) (k.val % 64) (by omega)]
  rw [show 8 * (k.val / 64) + k.val % 64 / 8 = k.val / 8 from by omega,
    show k.val % 64 % 8 = k.val % 8 from by omega]
  rfl

/-- C7: every bit of the crossover child equals the corresponding bit of a
parent, and where the parents agree the child carries the shared bit. -/
theorem C7_crossover_bits (a b : Genome) (rng : Rng) (k : Fin 512)
    (ha : a.Wf) (hb : b.Wf) :
    ((a.crossover b rng).1.bit k = a.bit k ∨
        (a.crossover b rng).1.bit k = b.bit k) ∧
      (a.bit k = b.bit k → (a.crossover b rng).1.bit k = a.bit k) := by
  rw [crossover_bit_ite a b rng k ha hb]
  constructor
  · split
    · exact Or.inl rfl
    · exact Or.inr rfl
  · intro hab
    split
    · rfl
    · exact hab.symm

/-- All-ones genome, used as a concrete test input. -/
def gFF : Genome := ⟨fun _ => 255⟩

/-- The all-ones genome is well-formed. -/
lemma gFF_wf : gFF.Wf := fun _ => by norm_num [gFF]

/-- Witness for C7 at two concrete parents and bit 0. -/
theorem C7_witness :
    gZero.Wf ∧ gFF.Wf ∧
      (((gZero.crossover gFF ⟨0⟩).1.bit 0 = gZero.bit 0 ∨
          (gZero.crossover gFF ⟨0⟩).1.bit 0 = gFF.bit 0) ∧
        (gZero.bit 0 = gFF.bit 0 →
          (gZero.crossover gFF ⟨0⟩).1.bit 0 = gZero.bit 0)) :=
  ⟨gZero_wf, gFF_wf, C7_crossover_bits gZero gFF ⟨0⟩ 0 gZero_wf gFF_wf⟩

/-! Section: Structure of the tick event list -/

/-- Every event pushed by the death pass is a Death event. -/
lemma pass2_events_death : ∀ (is : List Nat) (cs : List Simulacrum),
    ∀ e ∈ (pass2 is cs).2, e.isDeath = true := by
  intro is
  induction is with
  | nil => intro cs e he; simp [pass2] at he
  | cons i is ih =>
    intro cs e he
    rw [pass2] at he
    cases hci : cs[i]? with
    | none =>
      rw [hci] at he
      exact ih cs e he
    | some c =>
      rw [hci] at he
      replace he : e ∈ Event.Death c.id "Energy Depletion"
          :: (pass2 is (cs.eraseIdx i)).2 := he
      rcases List.mem_cons.mp he with rfl | he
      · rfl
      · exact ih _ e he

/-- Every event pushed by the birth pass is a Birth event. -/
lemma pass3_events_birth : ∀ (ps : List Nat) (cs : List Simulacrum) (rng : Rng)
    (nid : Nat), ∀ e ∈ (pass3 ps cs rng nid).events, e.isBirth = true := by
  intro ps
  induction ps with
  | nil => intro cs rng nid e he; simp [pass3] at he
  | cons p ps ih =>
    intro cs rng nid e he
    simp only [pass3] at he
    split at he
    · split at he
      · replace he : e ∈ Event.Birth (cs.get ⟨cs.findIdx (fun c => c.id == p), ‹_›⟩).id
            :: (pass3 ps _ _ (nid + 1)).events := he
        rcases List.mem_cons.mp he with rfl | he
        · rfl
        · exact ih _ _ _ e he
      · exact ih _ _ _ e he
    · exact ih _ _ _ e he

/-- C5: the event list of every tick splits as death events followed by
birth events. -/
theorem C5_deaths_before_births (w : World) :
    ∃ ds bs : List Event, (World.tick w).2 = ds ++ bs ∧
      List.Forall (fun e => e.isDeath = true) ds ∧
      List.Forall (fun e => e.isBirth = true) bs := by
  refine ⟨(pass2 (dedupConsec (sortDesc (deadIndicesOf 0
        (pass1 w.size (w.tick_count + 1) w.creatures w.rng).1)))
        ((pass1 w.size (w.tick_count + 1) w.creatures w.rng).1.map
          (fun s => s.creature))).2,
    (pass3 (reproIdsOf (pass1 w.size (w.tick_count + 1) w.creatures w.rng).1)
        (pass2 (dedupConsec (sortDesc (deadIndicesOf 0
            (pass1 w.size (w.tick_count + 1) w.creatures w.rng).1)))
          ((pass1 w.size (w.tick_count + 1) w.creatures w.rng).1.map
            (fun s => s.creature))).1
        (pass1 w.size (w.tick_count + 1) w.creatures w.rng).2 w.next_id).events,
    rfl, ?_, ?_⟩
  · rw [List.forall_iff_forall_mem]
    exact pass2_events_death _ _
  · rw [List.forall_iff_forall_mem]
    exact pass3_events_birth _ _ _ _

/-- C10: a tick's returned event list never contains a Move event. -/
theorem C10_no_move_events (w : World) :
    List.Forall (fun e => e.isMove = false) (World.tick w).2 := by
  rw [List.forall_iff_forall_mem]
  intro e he
  rcases List.mem_append.mp he with he | he
  · have hd := pass2_events_death _ _ e he
    cases e with
    | Death i r => rfl
    | Birth p => exact absurd hd (by simp [Event.isDeath])
    | Move i x y => exact absurd hd (by simp [Event.isDeath])
  · have hb := pass3_events_birth _ _ _ _ e he
    cases e with
    | Birth p => rfl
    | Death i r => exact absurd hb (by simp [Event.isBirth])
    | Move i x y => exact absurd hb (by simp [Event.isBirth])

/-! Section: The post-tick population invariant -/

/-- A call to `move_to` never changes the liveness flag. -/
lemma move_to_alive (c : Simulacrum) (t : Position) (ws : Nat) :
    (c.move_to t ws).1.alive = c.alive := by
  unfold Simulacrum.move_to
  split <;> rfl

/-- A creature not marked dead by the per-creature step comes out alive with
strictly positive energy. -/
lemma stepCreature_not_dead (size tick : Nat) (rng : Rng) (c : Simulacrum)
    (h : (stepCreature size tick rng c).dead = false) :
    (stepCreature size tick rng c).creature.alive = true ∧
      0 < (stepCreature size tick rng c).creature.energy := by
  unfold stepCreature at h ⊢
  by_cases ha : c.alive = false
  · rw [if_pos ha] at h
    simp at h
  · have halive : c.alive = true := by revert ha; cases c.alive <;> simp
    rw [if_neg ha] at h ⊢
    dsimp only at h ⊢
    split at h
    · next hmc =>
      split at h
      · simp at h
      · next hE =>
        rw [if_pos hmc, if_neg hE]
        exact ⟨(move_to_alive _ _ _).trans halive, not_le.mp hE⟩
    · next hmc =>
      split at h
      · simp at h
      · next hE =>
        rw [if_neg hmc, if_neg hE]
        exact ⟨halive, not_le.mp hE⟩

/-- Every pass-1 entry not marked dead carries an alive creature with
strictly positive energy. -/
lemma pass1_good (size tick : Nat) : ∀ (cs : List Simulacrum) (rng : Rng),
    ∀ s ∈ (pass1 size tick cs rng).1, s.dead = false →
      s.creature.alive = true ∧ 0 < s.creature.energy := by
  intro cs
  induction cs with
  | nil => intro rng s hs _; simp [pass1] at hs
  | cons c cs ih =>
    intro rng s hs hd
    replace hs : s ∈ stepCreature size tick rng c ::
        (pass1 size tick cs (stepCreature size tick rng c).rng).1 := hs
    rcases List.mem_cons.mp hs with rfl | hs
    · exact stepCreature_not_dead _ _ _ _ hd
    · exact ih _ s hs hd

/-- Membership in `insertDesc`. -/
lemma mem_insertDesc (x a : Nat) : ∀ l : List Nat,
    a ∈ insertDesc x l ↔ a = x ∨ a ∈ l := by
  intro l
  induction l with
  | nil => simp [insertDesc]
  | cons y ys ih =>
    simp only [insertDesc]
    split
    · simp [List.mem_cons]
    · simp only [List.mem_cons, ih]
      tauto

/-- Membership in `sortDesc`. -/
lemma mem_sortDesc (a : Nat) : ∀ l : List Nat, a ∈ sortDesc l ↔ a ∈ l := by
  intro l
  induction l with
  | nil => simp [sortDesc]
  | cons x xs ih =>
    simp only [sortDesc, mem_insertDesc, List.mem_cons, ih]

/-- Insertion via `insertDesc` preserves descending order. -/
lemma insertDesc_pairwise (x : Nat) : ∀ l : List Nat,
    List.Pairwise (fun a b => b ≤ a) l →
    List.Pairwise (fun a b => b ≤ a) (insertDesc x l) := by
  intro l
  induction l with
  | nil => intro; simp [insertDesc]
  | cons y ys ih =>
    intro h
    rcases List.pairwise_cons.mp h with ⟨hy, hys⟩
    simp only [insertDesc]
    split
    · next hxy =>
      refine List.pairwise_cons.mpr ⟨?_, h⟩
      intro b hb
      rcases List.mem_cons.mp hb with rfl | hb
      · exact hxy
      · exact le_trans (hy b hb) hxy
    · next hxy =>
      refine List.pairwise_cons.mpr ⟨?_, ih hys⟩
      intro b hb
      rcases (mem_insertDesc x b ys).mp hb with rfl | hb
      · omega
      · exact hy b hb

/-- Sorting via `sortDesc` sorts into descending order. -/
lemma sortDesc_pairwise : ∀ l : List Nat,
    List.Pairwise (fun a b => b ≤ a) (sortDesc l) := by
  intro l
  induction l with
  | nil => simp [sortDesc]
  | cons x xs ih => exact insertDesc_pairwise x _ ih

/-- Membership in `dedupConsec`. -/
lemma mem_dedupConsec (a : Nat) : ∀ l : List Nat,
    a ∈ dedupConsec l ↔ a ∈ l := by
  intro l
  induction l with
  | nil => simp [dedupConsec]
  | cons x t ih =>
    cases t with
    | nil => simp [dedupConsec]
    | cons y ys =>
      rw [dedupConsec]
      split
      · next hxy =>
        subst hxy
        rw [ih]
        simp [List.mem_cons]
      · simp only [List.mem_cons, ih]

/-- On a descending list, removing consecutive duplicates yields a strictly
descending list. -/
lemma dedupConsec_strict : ∀ l : List Nat,
    List.Pairwise (fun a b => b ≤ a) l →
    List.Pairwise (fun a b => b < a) (dedupConsec l) := by
  intro l
  induction l with
  | nil => intro; simp [dedupConsec]
  | cons x t ih =>
    intro h
    rcases List.pairwise_cons.mp h with ⟨hx, ht⟩
    cases t with
    | nil => simp [dedupConsec]
    | cons y ys =>
      rw [dedupConsec]
      split
      · exact ih ht
      · next hxy =>
        refine List.pairwise_cons.mpr ⟨?_, ih ht⟩
        intro b hb
        rw [mem_dedupConsec] at hb
        rcases List.mem_cons.mp hb with rfl | hb2
        · have := hx b (List.mem_cons_self _ _)
          omega
        · have h1 := hx y (List.mem_cons_self _ _)
          have h2 := (List.pairwise_cons.mp ht).1 b hb2
          omega

/-- Indices collected by `deadIndicesOf` starting at `k` are at least `k`. -/
lemma deadIndicesOf_ge : ∀ (ms : List StepOut) (k x : Nat),
    x ∈ deadIndicesOf k ms → k ≤ x := by
  intro ms
  induction ms with
  | nil => intro k x hx; simp [deadIndicesOf] at hx
  | cons m ms ih =>
    intro k x hx
    rw [deadIndicesOf] at hx
    rcases List.mem_append.mp hx with h1 | h2
    · split at h1
      · simp at h1
        omega
      · simp at h1
    · have := ih (k + 1) x h2
      omega

/-- Index `k + j` is collected by `deadIndicesOf k` exactly when the entry at
position `j` is marked dead. -/
lemma deadIndicesOf_spec : ∀ (ms : List StepOut) (k j : Nat) (s : StepOut),
    ms[j]? = some s → ((k + j) ∈ deadIndicesOf k ms ↔ s.dead = true) := by
  intro ms
  induction ms with
  | nil => intro k j s h; simp at h
  | cons m ms ih =>
    intro k j s h
    cases j with
    | zero =>
      rw [List.getElem?_cons_zero] at h
      injection h with h
      subst h
      rw [Nat.add_zero, deadIndicesOf]
      constructor
      · intro hmem
        rcases List.mem_append.mp hmem with h1 | h2
        · by_cases hd : m.dead = true
          · exact hd
          · rw [if_neg (by simpa using hd)] at h1
            simp at h1
        · have := deadIndicesOf_ge ms (k + 1) k h2
          omega
      · intro hd
        rw [hd]
        exact List.mem_append_left _ (by simp)
    | succ j =>
      rw [List.getElem?_cons_succ] at h
      rw [deadIndicesOf]
      constructor
      · intro hmem
        rcases List.mem_append.mp hmem with h1 | h2
        · split at h1 <;> simp at h1
        · have hmm : (k + 1) + j ∈ deadIndicesOf (k + 1) ms := by
            have : k + (j + 1) = (k + 1) + j := by omega
            rwa [this] at h2
          exact (ih (k + 1) j s h).mp hmm
      · intro hd
        refine List.mem_append_right _ ?_
        have : k + (j + 1) = (k + 1) + j := by omega
        rw [this]
        exact (ih (k + 1) j s h).mpr hd

/-- Every survivor of the death pass sits at an index that was not in the
(strictly descending) removal list. -/
lemma pass2_mem : ∀ (is : List Nat) (cs : List Simulacrum),
    List.Pairwise (fun a b => b < a) is →
    ∀ x ∈ (pass2 is cs).1, ∃ j, j ∉ is ∧ cs[j]? = some x := by
  intro is
  induction is with
  | nil =>
    intro cs _ x hx
    replace hx : x ∈ cs := hx
    obtain ⟨n, hn⟩ := List.get_of_mem hx
    exact ⟨n.val, by simp, by simp [List.getElem?_eq_getElem n.isLt, ← hn]⟩
  | cons i is ih =>
    intro cs hpw x hx
    rcases List.pairwise_cons.mp hpw with ⟨hhead, htail⟩
    rw [pass2] at hx
    cases hci : cs[i]? with
    | none =>
      rw [hci] at hx
      obtain ⟨j, hj1, hj2⟩ := ih cs htail x hx
      refine ⟨j, ?_, hj2⟩
      intro hmem
      rcases List.mem_cons.mp hmem with rfl | hmem
      · have hlen : cs.length ≤ j := List.getElem?_eq_none_iff.mp hci
        have : j < cs.length := by
          by_contra hc
          rw [List.getElem?_eq_none (by omega)] at hj2
          exact Option.noConfusion hj2
        omega
      · exact hj1 hmem
    | some c =>
      rw [hci] at hx
      replace hx : x ∈ (pass2 is (cs.eraseIdx i)).1 := hx
      obtain ⟨j, hj1, hj2⟩ := ih _ htail x hx
      by_cases hji : j < i
      · refine ⟨j, ?_, ?_⟩
        · intro hmem
          rcases List.mem_cons.mp hmem with rfl | hmem
          · omega
          · exact hj1 hmem
        · rwa [List.getElem?_eraseIdx_of_lt cs i j hji] at hj2
      · refine ⟨j + 1, ?_, ?_⟩
        · intro hmem
          rcases List.mem_cons.mp hmem with heq | hmem
          · omega
          · have := hhead _ hmem
            omega
        · rwa [List.getElem?_eraseIdx_of_ge cs i j (by omega)] at hj2

/-- After pass 1 and the death pass, every remaining creature is alive with
strictly positive energy. -/
lemma pass2_of_pass1_good (size tc : Nat) (cs : List Simulacrum) (rng : Rng) :
    ∀ x ∈ (pass2 (dedupConsec (sortDesc (deadIndicesOf 0
        (pass1 size tc cs rng).1)))
        ((pass1 size tc cs rng).1.map (fun s => s.creature))).1,
      x.alive = true ∧ 0 < x.energy := by
  intro x hx
  have hsorted : List.Pairwise (fun a b => b < a)
      (dedupConsec (sortDesc (deadIndicesOf 0 (pass1 size tc cs rng).1))) :=
    dedupConsec_strict _ (sortDesc_pairwise _)
  obtain ⟨j, hjnot, hjget⟩ := pass2_mem _ _ hsorted x hx
  rw [List.getElem?_map] at hjget
  cases hms : (pass1 size tc cs rng).1[j]? with
  | none => rw [hms] at hjget; simp at hjget
  | some s =>
    rw [hms] at hjget
    simp only [Option.map_some'] at hjget
    injection hjget with hxs
    have hdead : s.dead = false := by
      cases hds : s.dead
      · rfl
      · exfalso
        apply hjnot
        rw [mem_dedupConsec, mem_sortDesc]
        have hspec := deadIndicesOf_spec (pass1 size tc cs rng).1 0 j s hms
        rw [Nat.zero_add] at hspec
        exact hspec.mpr hds
    have hgood := pass1_good size tc cs rng s (List.getElem?_mem hms) hdead
    rw [hxs] at hgood
    exact hgood

/-- The birth pass preserves "alive with positive energy" on the population
and only appends such offspring. -/
lemma pass3_good : ∀ (ps : List Nat) (cs : List Simulacrum) (rng : Rng)
    (nid : Nat), (∀ c ∈ cs, c.alive = true ∧ 0 < c.energy) →
    (∀ c ∈ (pass3 ps cs rng nid).creatures, c.alive = true ∧ 0 < c.energy) ∧
      (∀ c ∈ (pass3 ps cs rng nid).offspring, c.alive = true ∧ 0 < c.energy) := by
  intro ps
  induction ps with
  | nil =>
    intro cs rng nid h
    exact ⟨fun c hc => h c hc, fun c hc => by simp [pass3] at hc⟩
  | cons p ps ih =>
    intro cs rng nid h
    simp only [pass3]
    split
    · next hj =>
      split
      · next hpe =>
        have hset : ∀ c ∈ cs.set (cs.findIdx (fun c => c.id == p))
            { cs.get ⟨cs.findIdx (fun c => c.id == p), hj⟩ with
              energy := (cs.get ⟨cs.findIdx (fun c => c.id == p), hj⟩).energy - 25 },
            c.alive = true ∧ 0 < c.energy := by
          intro c hc
          rcases List.mem_or_eq_of_mem_set hc with hc | rfl
          · exact h c hc
          · constructor
            · exact (h _ (List.get_mem cs _ _)).1
            · show 0 < (cs.get ⟨cs.findIdx (fun c => c.id == p), hj⟩).energy - 25
              linarith [hpe]
        obtain ⟨h1, h2⟩ := ih _ _ _ hset
        refine ⟨fun c hc => h1 c hc, fun c hc => ?_⟩
        rcases List.mem_cons.mp hc with rfl | hc
        · exact ⟨rfl, by norm_num⟩
        · exact h2 c hc
      · exact ih cs rng nid h
    · exact ih cs rng nid h

/-- C9: after every tick, every creature remaining in the population is
alive with strictly positive energy. -/
theorem C9_tick_population_invariant (w : World) :
    List.Forall (fun c => 0 < c.energy ∧ c.alive = true)
      (World.tick w).1.creatures := by
  rw [List.forall_iff_forall_mem]
  intro c hc
  rcases List.mem_append.mp hc with hc | hc
  · have h := (pass3_good _ _ _ _
      (pass2_of_pass1_good w.size (w.tick_count + 1) w.creatures w.rng)).1 c hc
    exact ⟨h.2, h.1⟩
  · have h := (pass3_good _ _ _ _
      (pass2_of_pass1_good w.size (w.tick_count + 1) w.creatures w.rng)).2 c hc
    exact ⟨h.2, h.1⟩
